import Mathlib

/-!
Verification development for the zephyr quantitative decision pipeline.

The Python modules zephyr.strategy, zephyr.risk, zephyr.backtest and the
pure numeric core of zephyr.forecast.gefs are shallowly embedded here.
Python floats are modelled as rational numbers; every arithmetic formula
in those modules is exact closed-form arithmetic, so the rational model
computes the intended values.  Functions that raise exceptions on the
modelled paths return Option values, with none standing for the raised
error.  Sides are kept as strings, as in the source.
-/

/-! ## zephyr.strategy -/

/-- Embeds the Signal dataclass from zephyr/types.py.  The human-readable
rationale string is omitted: it is produced by float formatting that has no
counterpart in the rational model and no claim mentions it. -/
structure Signal where
  event_id : String
  contract_ticker : String
  side : String
  forecast_probability : ℚ
  market_probability : ℚ
  edge : ℚ
  expected_value_per_dollar : ℚ
deriving DecidableEq, Repr

/-- Embeds expected_value_per_dollar from zephyr/strategy.py lines 6 to 18. -/
def expected_value_per_dollar (side : String) (forecast_probability yes_price : ℚ) : ℚ :=
  if side = "buy_yes" then
    if yes_price ≤ 0 ∨ 1 ≤ yes_price then 0
    else forecast_probability / yes_price - 1
  else if side = "buy_no" then
    let no_price := 1 - yes_price
    if no_price ≤ 0 ∨ 1 ≤ no_price then 0
    else (1 - forecast_probability) / no_price - 1
  else 0

/-- Embeds build_signal from zephyr/strategy.py lines 21 to 54.  The two
early returns of None are modelled by the none branches. -/
def build_signal (event_id contract_ticker : String)
    (forecast_probability market_probability min_edge : ℚ) : Option Signal :=
  let edge := forecast_probability - market_probability
  let side? : Option String :=
    if min_edge ≤ edge then some ("buy_yes")
    else if edge ≤ -min_edge then some ("buy_no")
    else none
  match side? with
  | none => none
  | some side =>
    let ev := expected_value_per_dollar side forecast_probability market_probability
    if ev ≤ 0 then none
    else some ⟨event_id, contract_ticker, side, forecast_probability,
      market_probability, edge, ev⟩

/-! ## zephyr.risk -/

/-- Embeds the RiskConfig dataclass from zephyr/risk.py lines 8 to 12. -/
structure RiskConfig where
  max_fraction_per_contract : ℚ := 3 / 100
  kelly_scale : ℚ := 1 / 4
  min_fraction_if_trade : ℚ := 0
deriving DecidableEq, Repr

/-- Embeds the SizedSignal dataclass from zephyr/types.py. -/
structure SizedSignal where
  signal : Signal
  fraction_of_bankroll : ℚ
  stake_dollars : ℚ
deriving DecidableEq, Repr

/-- Embeds the buy-yes Kelly fraction from zephyr/risk.py lines 15 to 19. -/
def kelly_fraction_yes (forecast_probability yes_price : ℚ) : ℚ :=
  if yes_price ≤ 0 ∨ 1 ≤ yes_price then 0
  else max 0 ((forecast_probability - yes_price) / (1 - yes_price))

/-- Embeds the buy-no Kelly fraction from zephyr/risk.py lines 22 to 26. -/
def kelly_fraction_no (forecast_probability yes_price : ℚ) : ℚ :=
  if yes_price ≤ 0 ∨ 1 ≤ yes_price then 0
  else max 0 ((yes_price - forecast_probability) / yes_price)

/-- Embeds size_signal from zephyr/risk.py lines 29 to 61.  The unknown-side
early return of None is the none branch of the inner match. -/
def size_signal (signal : Signal) (bankroll : ℚ) (config : RiskConfig) :
    Option SizedSignal :=
  if bankroll ≤ 0 then none
  else
    let raw_fraction? : Option ℚ :=
      if signal.side = "buy_yes" then
        some (kelly_fraction_yes signal.forecast_probability signal.market_probability)
      else if signal.side = "buy_no" then
        some (kelly_fraction_no signal.forecast_probability signal.market_probability)
      else none
    match raw_fraction? with
    | none => none
    | some raw_fraction =>
      let scaled_fraction := raw_fraction * config.kelly_scale
      let bounded_fraction := min config.max_fraction_per_contract scaled_fraction
      if bounded_fraction < config.min_fraction_if_trade then none
      else
        let stake := bankroll * bounded_fraction
        if stake ≤ 0 then none
        else some ⟨signal, bounded_fraction, stake⟩

/-! ## zephyr.backtest -/

/-- Embeds the BacktestRow dataclass from zephyr/backtest.py lines 11 to 18. -/
structure BacktestRow where
  event_id : String
  contract_ticker : String
  forecast_probability : ℚ
  market_probability : ℚ
  outcome : ℤ
  timestamp : Option String := none
deriving DecidableEq, Repr

/-- Embeds the SettledTrade dataclass from zephyr/backtest.py lines 21 to 33. -/
structure SettledTrade where
  event_id : String
  contract_ticker : String
  side : String
  forecast_probability : ℚ
  market_probability : ℚ
  edge : ℚ
  stake_dollars : ℚ
  pnl_dollars : ℚ
  outcome : ℤ
  bankroll_after : ℚ
  timestamp : Option String := none
deriving DecidableEq, Repr

/-- Embeds the BacktestResult dataclass from zephyr/backtest.py lines 36 to 47. -/
structure BacktestResult where
  starting_bankroll : ℚ
  ending_bankroll : ℚ
  total_trades : ℕ
  winning_trades : ℕ
  losing_trades : ℕ
  win_rate : ℚ
  total_pnl : ℚ
  return_pct : ℚ
  average_edge : ℚ
  trades : List SettledTrade
deriving DecidableEq, Repr

/-- Embeds the settlement rule from zephyr/backtest.py lines 50 to 69. -/
def settle_pnl (side : String) (price_yes stake : ℚ) (outcome : ℤ) : ℚ :=
  if stake ≤ 0 then 0
  else if price_yes ≤ 0 ∨ 1 ≤ price_yes then 0
  else if side = "buy_yes" then
    if outcome = 1 then stake * (1 / price_yes - 1) else -stake
  else if side = "buy_no" then
    let price_no := 1 - price_yes
    if price_no ≤ 0 then 0
    else if outcome = 0 then stake * (1 / price_no - 1) else -stake
  else 0

/-- Embeds the row loop of run_backtest, zephyr/backtest.py lines 83 to 119:
the list of settled trades accumulated in order, paired with the final
bankroll.  The continue statements are the recursive calls that keep the
bankroll unchanged. -/
def process_rows (min_edge : ℚ) (config : RiskConfig) :
    List BacktestRow → ℚ → List SettledTrade × ℚ
  | [], bankroll => ([], bankroll)
  | row :: rest, bankroll =>
    match build_signal row.event_id row.contract_ticker
        row.forecast_probability row.market_probability min_edge with
    | none => process_rows min_edge config rest bankroll
    | some signal =>
      match size_signal signal bankroll config with
      | none => process_rows min_edge config rest bankroll
      | some sized =>
        let pnl := settle_pnl signal.side row.market_probability
          sized.stake_dollars row.outcome
        let bankroll' := bankroll + pnl
        let tail := process_rows min_edge config rest bankroll'
        (⟨row.event_id, row.contract_ticker, signal.side,
          row.forecast_probability, row.market_probability, signal.edge,
          sized.stake_dollars, pnl, row.outcome, bankroll', row.timestamp⟩ :: tail.1,
          tail.2)

/-- Embeds run_backtest from zephyr/backtest.py lines 72 to 142: the row loop
followed by the aggregation of lines 121 to 129. -/
def run_backtest (rows : List BacktestRow) (starting_bankroll min_edge : ℚ)
    (risk_config : RiskConfig) : BacktestResult :=
  let r := process_rows min_edge risk_config rows starting_bankroll
  let settled := r.1
  let bankroll := r.2
  let total_trades := settled.length
  let wins := settled.countP (fun trade => decide (0 < trade.pnl_dollars))
  let losses := settled.countP (fun trade => decide (trade.pnl_dollars < 0))
  let win_rate : ℚ := if total_trades = 0 then 0 else (wins : ℚ) / (total_trades : ℚ)
  let total_pnl := bankroll - starting_bankroll
  let return_pct : ℚ :=
    if 0 < starting_bankroll then bankroll / starting_bankroll - 1 else 0
  let average_edge : ℚ :=
    if total_trades = 0 then 0
    else (settled.map (fun trade => |trade.edge|)).sum / (total_trades : ℚ)
  { starting_bankroll := starting_bankroll
    ending_bankroll := bankroll
    total_trades := total_trades
    winning_trades := wins
    losing_trades := losses
    win_rate := win_rate
    total_pnl := total_pnl
    return_pct := return_pct
    average_edge := average_edge
    trades := settled }

/-! ## zephyr.forecast.gefs, pure numeric core -/

/-- Embeds FILL_VALUE from zephyr/forecast/gefs.py line 14, the value 9.999e20. -/
def FILL_VALUE : ℚ := 9999 * 10 ^ 17

/-- Embeds MM_PER_INCH from zephyr/forecast/gefs.py line 16. -/
def MM_PER_INCH : ℚ := 254 / 10

/-- Embeds fahrenheit_to_kelvin from zephyr/forecast/gefs.py lines 160 to 161. -/
def fahrenheit_to_kelvin (temp_f : ℚ) : ℚ :=
  (temp_f - 32) * (5 / 9) + 27315 / 100

/-- Embeds inches_to_mm from zephyr/forecast/gefs.py lines 164 to 165. -/
def inches_to_mm (value_in : ℚ) : ℚ := value_in * MM_PER_INCH

/-- Embeds the validity test from zephyr/forecast/gefs.py lines 168 to 169.
Every rational is finite, so the finiteness conjunct of the source holds
identically in the model; the matrix parser's missing-value sentinel
(not-a-number in the source) is modelled by any value at or above one tenth
of FILL_VALUE. -/
def is_valid_value (value : ℚ) : Bool :=
  decide (value < FILL_VALUE / 10)

/-- Embeds the inner walk of the cumulative classifier, zephyr/forecast/gefs.py
lines 174 to 180: the running previous valid value is the Option argument. -/
def cumulative_walk : Option ℚ → List ℚ → Bool
  | _, [] => true
  | prev?, value :: rest =>
    if ¬ is_valid_value value then cumulative_walk prev? rest
    else
      match prev? with
      | some prev =>
        if value + 1 / 1000000 < prev then false else cumulative_walk (some value) rest
      | none => cumulative_walk (some value) rest

/-- Embeds the cumulative-matrix classifier from zephyr/forecast/gefs.py
lines 172 to 181: the source returns False on the first offending row, which
is the same as requiring every row walk to succeed. -/
def is_cumulative_matrix (matrix : List (List ℚ)) : Bool :=
  matrix.all (fun row => cumulative_walk none row)

/-- Embeds the first-valid scan from zephyr/forecast/gefs.py lines 191 to 195. -/
def first_valid : List ℚ → Option ℚ
  | [] => none
  | value :: rest => if is_valid_value value then some value else first_valid rest

/-- Embeds the last-valid scan from zephyr/forecast/gefs.py lines 184 to 188:
the source iterates over reversed(values) and returns the first valid one. -/
def last_valid (values : List ℚ) : Option ℚ :=
  first_valid values.reverse

/-- Embeds the per-member maximum of lines 237 to 240 of
zephyr/forecast/gefs.py: the maximum of the valid values of a row, or none
when the row has no valid value. -/
def member_max (row : List ℚ) : Option ℚ :=
  (row.filter is_valid_value).max?

/-- Embeds the probability computation of compute_temperature_event_probability,
zephyr/forecast/gefs.py lines 235 to 247, as a function of the fetched
member-by-time matrix and the threshold already converted to Kelvin.  Run
discovery, the http fetches and the window selection feeding that matrix are
network I/O outside this model; the RuntimeError raised when no member has a
valid value is modelled by none. -/
def compute_temperature_event_probability (matrix : List (List ℚ))
    (threshold_k : ℚ) : Option ℚ :=
  let member_maxima_k := matrix.filterMap member_max
  if member_maxima_k.isEmpty then none
  else
    let runs_exceeding := member_maxima_k.countP (fun value => decide (threshold_k ≤ value))
    some ((runs_exceeding : ℚ) / (member_maxima_k.length : ℚ))

/-- Embeds the per-member total of compute_precip_event_probability,
zephyr/forecast/gefs.py lines 329 to 346, for one row of the widened fetch
window: none models a member skipped by a continue statement. -/
def precip_member_total (is_cumulative : Bool) (window_offset : ℕ)
    (row : List ℚ) : Option ℚ :=
  let day_values := row.drop window_offset
  if day_values.isEmpty then none
  else if is_cumulative then
    let end_val := last_valid day_values
    let base_val :=
      if 0 < window_offset then last_valid (row.take window_offset)
      else first_valid day_values
    match end_val, base_val with
    | some e, some b => some (max 0 (e - b))
    | _, _ => none
  else
    some ((day_values.filter is_valid_value).sum)

/-- Embeds the probability computation of compute_precip_event_probability,
zephyr/forecast/gefs.py lines 325 to 353, as a function of the fetched
member-by-time matrix over the widened window, the offset of the target
window inside it, and the threshold already converted to millimetres.  The
network fetches feeding the matrix are outside this model; the RuntimeError
raised when no member yields a total is modelled by none. -/
def compute_precip_event_probability (matrix : List (List ℚ))
    (window_offset : ℕ) (threshold_mm : ℚ) : Option ℚ :=
  let is_cumulative := is_cumulative_matrix matrix
  let member_totals_mm := matrix.filterMap (precip_member_total is_cumulative window_offset)
  if member_totals_mm.isEmpty then none
  else
    let runs_exceeding := member_totals_mm.countP (fun value => decide (threshold_mm ≤ value))
    some ((runs_exceeding : ℚ) / (member_totals_mm.length : ℚ))

/-- Models the round function of Python, which rounds to the nearest integer
and breaks ties to the even integer. -/
def pyRound (q : ℚ) : ℤ :=
  let f := ⌊q⌋
  let r := q - f
  if r < 1 / 2 then f
  else if 1 / 2 < r then f + 1
  else if f % 2 = 0 then f else f + 1

/-- Models the float modulo of Python with divisor 360, which returns the
representative of its argument in the interval from 0 inclusive to 360
exclusive. -/
def wrap360 (q : ℚ) : ℚ :=
  q - 360 * ⌊q / 360⌋

/-- Embeds nearest_grid_indices from zephyr/forecast/gefs.py lines 141 to 150.
The ValueError raised for a latitude outside the valid band is modelled by
none. -/
def nearest_grid_indices (lat lon : ℚ) : Option (ℤ × ℤ) :=
  if lat < -90 ∨ 90 < lat then none
  else
    let lon_360 := wrap360 lon
    let lat_idx := pyRound ((lat + 90) / (1 / 2))
    let lon_idx := pyRound (lon_360 / (1 / 2))
    some (min 360 (max 0 lat_idx), min 719 (max 0 lon_idx))

/-- Embeds grid_coords_from_indices from zephyr/forecast/gefs.py
lines 153 to 157. -/
def grid_coords_from_indices (lat_idx lon_idx : ℤ) : ℚ × ℚ :=
  let lat := -90 + (1 / 2) * (lat_idx : ℚ)
  let lon_360 := (1 / 2) * (lon_idx : ℚ)
  let lon_180 := wrap360 (lon_360 + 180) - 180
  (lat, lon_180)

/-- Distance between two angles measured around the 360-degree circle; used
to compare a recovered grid longitude with the original longitude, since the
recovered value is reported in the band from -180 to 180. -/
def circDist (a b : ℚ) : ℚ :=
  min (wrap360 (a - b)) (360 - wrap360 (a - b))

/-! ## Theorems -/

/-- C1: build_signal takes side buy_yes when the edge reaches min_edge and
side buy_no when it reaches the opposite threshold (the buy_yes test runs
first), returns no signal when the edge lies strictly between the
thresholds, the expected value per dollar is forecast over price minus one
for buy_yes and one-minus-forecast over one-minus-price minus one for
buy_no, each equal to 0 when its denominator price lies at or outside the
open unit interval, and even a threshold-crossing edge yields no signal
unless that expected value is strictly positive. -/
theorem build_signal_spec (eid tick : String) (p m e : ℚ) :
    (expected_value_per_dollar ("buy_yes") p m
      = if 0 < m ∧ m < 1 then p / m - 1 else 0)
    ∧ (expected_value_per_dollar ("buy_no") p m
      = if 0 < 1 - m ∧ 1 - m < 1 then (1 - p) / (1 - m) - 1 else 0)
    ∧ (e ≤ p - m → 0 < expected_value_per_dollar ("buy_yes") p m →
      build_signal eid tick p m e
        = some ⟨eid, tick, ("buy_yes"), p, m, p - m,
            expected_value_per_dollar ("buy_yes") p m⟩)
    ∧ (¬ e ≤ p - m → p - m ≤ -e → 0 < expected_value_per_dollar ("buy_no") p m →
      build_signal eid tick p m e
        = some ⟨eid, tick, ("buy_no"), p, m, p - m,
            expected_value_per_dollar ("buy_no") p m⟩)
    ∧ (-e < p - m → p - m < e → build_signal eid tick p m e = none)
    ∧ (e ≤ p - m → expected_value_per_dollar ("buy_yes") p m ≤ 0 →
      build_signal eid tick p m e = none)
    ∧ (¬ e ≤ p - m → p - m ≤ -e → expected_value_per_dollar ("buy_no") p m ≤ 0 →
      build_signal eid tick p m e = none)
    ∧ (∀ s, build_signal eid tick p m e = some s → 0 < s.expected_value_per_dollar) := by
  have hyes : expected_value_per_dollar ("buy_yes") p m
      = if 0 < m ∧ m < 1 then p / m - 1 else 0 := by
    rw [expected_value_per_dollar, if_pos rfl]
    by_cases h : 0 < m ∧ m < 1
    · rw [if_pos h, if_neg]
      push_neg
      exact ⟨h.1, h.2⟩
    · rw [if_neg h, if_pos]
      by_contra hc
      push_neg at hc
      exact h ⟨hc.1, hc.2⟩
  have hno : expected_value_per_dollar ("buy_no") p m
      = if 0 < 1 - m ∧ 1 - m < 1 then (1 - p) / (1 - m) - 1 else 0 := by
    rw [expected_value_per_dollar, if_neg (by decide : ¬ ("buy_no" : String) = "buy_yes"),
      if_pos rfl]
    by_cases h : 0 < 1 - m ∧ 1 - m < 1
    · rw [if_pos h, if_neg]
      push_neg
      exact ⟨h.1, h.2⟩
    · rw [if_neg h, if_pos]
      by_contra hc
      push_neg at hc
      exact h ⟨hc.1, hc.2⟩
  have h3 : e ≤ p - m → 0 < expected_value_per_dollar ("buy_yes") p m →
      build_signal eid tick p m e
        = some ⟨eid, tick, ("buy_yes"), p, m, p - m,
            expected_value_per_dollar ("buy_yes") p m⟩ := by
    intro h1 h2
    rw [build_signal]
    simp only [if_pos h1]
    rw [if_neg (not_le.mpr h2)]
  have h4 : ¬ e ≤ p - m → p - m ≤ -e → 0 < expected_value_per_dollar ("buy_no") p m →
      build_signal eid tick p m e
        = some ⟨eid, tick, ("buy_no"), p, m, p - m,
            expected_value_per_dollar ("buy_no") p m⟩ := by
    intro h1 h1' h2
    rw [build_signal]
    simp only [if_neg h1, if_pos h1']
    rw [if_neg (not_le.mpr h2)]
  have h5 : -e < p - m → p - m < e → build_signal eid tick p m e = none := by
    intro h1 h2
    rw [build_signal]
    simp only [if_neg (not_le.mpr h2), if_neg (not_le.mpr h1)]
  have h6 : e ≤ p - m → expected_value_per_dollar ("buy_yes") p m ≤ 0 →
      build_signal eid tick p m e = none := by
    intro h1 h2
    rw [build_signal]
    simp only [if_pos h1]
    rw [if_pos h2]
  have h7 : ¬ e ≤ p - m → p - m ≤ -e → expected_value_per_dollar ("buy_no") p m ≤ 0 →
      build_signal eid tick p m e = none := by
    intro h1 h1' h2
    rw [build_signal]
    simp only [if_neg h1, if_pos h1']
    rw [if_pos h2]
  refine ⟨hyes, hno, h3, h4, h5, h6, h7, ?_⟩
  intro s hs
  by_cases hc1 : e ≤ p - m
  · by_cases hev : 0 < expected_value_per_dollar ("buy_yes") p m
    · rw [h3 hc1 hev] at hs
      cases hs
      exact hev
    · rw [h6 hc1 (not_lt.mp hev)] at hs
      exact absurd hs (by simp)
  · by_cases hc2 : p - m ≤ -e
    · by_cases hev : 0 < expected_value_per_dollar ("buy_no") p m
      · rw [h4 hc1 hc2 hev] at hs
        cases hs
        exact hev
      · rw [h7 hc1 hc2 (not_lt.mp hev)] at hs
        exact absurd hs (by simp)
    · rw [h5 (not_le.mp hc2) (not_le.mp hc1)] at hs
      exact absurd hs (by simp)

/-- C1 witness: a concrete threshold-crossing input on which the buy_yes
branch of the specification fires. -/
theorem build_signal_spec_witness :
    build_signal ("e") ("c") (18 / 25) (27 / 50) (1 / 10)
      = some ⟨("e"), ("c"), ("buy_yes"), 18 / 25, 27 / 50, 18 / 25 - 27 / 50,
          expected_value_per_dollar ("buy_yes") (18 / 25) (27 / 50)⟩ :=
  (build_signal_spec ("e") ("c") (18 / 25) (27 / 50) (1 / 10)).2.2.1
    (by norm_num) (by rw [expected_value_per_dollar, if_pos rfl]; norm_num)

/-- Concrete signal of the sizing scenario of the specification: forecast
probability 0.80 against a market price of 0.50 on the buy_yes side. -/
def sig80 : Signal :=
  ⟨("evt"), ("tick"), ("buy_yes"), 4 / 5, 1 / 2, 3 / 10, 3 / 5⟩

/-- C2: the raw Kelly fractions are the floored side-specific formulas and 0
at a degenerate price, size_signal scales the raw fraction by kelly_scale,
caps it at max_fraction_per_contract, returns none when the bankroll is
nonpositive, when the bounded fraction is below min_fraction_if_trade or
when the stake of bankroll times bounded fraction is not strictly positive,
and on the concrete scenario of the specification (forecast 0.80, market
0.50, kelly_scale 1, cap 0.03, bankroll 10000) it yields fraction 3 / 100
and stake 300. -/
theorem size_signal_spec (sig : Signal) (b : ℚ) (cfg : RiskConfig) (f p : ℚ) :
    (kelly_fraction_yes f p
      = if 0 < p ∧ p < 1 then max 0 ((f - p) / (1 - p)) else 0)
    ∧ (kelly_fraction_no f p
      = if 0 < p ∧ p < 1 then max 0 ((p - f) / p) else 0)
    ∧ (b ≤ 0 → size_signal sig b cfg = none)
    ∧ (0 < b → sig.side = ("buy_yes") →
      size_signal sig b cfg
        = (if min cfg.max_fraction_per_contract
              (kelly_fraction_yes sig.forecast_probability sig.market_probability
                * cfg.kelly_scale) < cfg.min_fraction_if_trade
            ∨ b * min cfg.max_fraction_per_contract
              (kelly_fraction_yes sig.forecast_probability sig.market_probability
                * cfg.kelly_scale) ≤ 0
          then none
          else some ⟨sig,
            min cfg.max_fraction_per_contract
              (kelly_fraction_yes sig.forecast_probability sig.market_probability
                * cfg.kelly_scale),
            b * min cfg.max_fraction_per_contract
              (kelly_fraction_yes sig.forecast_probability sig.market_probability
                * cfg.kelly_scale)⟩))
    ∧ (0 < b → sig.side = ("buy_no") →
      size_signal sig b cfg
        = (if min cfg.max_fraction_per_contract
              (kelly_fraction_no sig.forecast_probability sig.market_probability
                * cfg.kelly_scale) < cfg.min_fraction_if_trade
            ∨ b * min cfg.max_fraction_per_contract
              (kelly_fraction_no sig.forecast_probability sig.market_probability
                * cfg.kelly_scale) ≤ 0
          then none
          else some ⟨sig,
            min cfg.max_fraction_per_contract
              (kelly_fraction_no sig.forecast_probability sig.market_probability
                * cfg.kelly_scale),
            b * min cfg.max_fraction_per_contract
              (kelly_fraction_no sig.forecast_probability sig.market_probability
                * cfg.kelly_scale)⟩))
    ∧ size_signal sig80 10000 ⟨3 / 100, 1, 0⟩ = some ⟨sig80, 3 / 100, 300⟩ := by
  have hyes : kelly_fraction_yes f p
      = if 0 < p ∧ p < 1 then max 0 ((f - p) / (1 - p)) else 0 := by
    rw [kelly_fraction_yes]
    by_cases h : 0 < p ∧ p < 1
    · rw [if_pos h, if_neg]
      push_neg
      exact ⟨h.1, h.2⟩
    · rw [if_neg h, if_pos]
      by_contra hc
      push_neg at hc
      exact h ⟨hc.1, hc.2⟩
  have hno : kelly_fraction_no f p
      = if 0 < p ∧ p < 1 then max 0 ((p - f) / p) else 0 := by
    rw [kelly_fraction_no]
    by_cases h : 0 < p ∧ p < 1
    · rw [if_pos h, if_neg]
      push_neg
      exact ⟨h.1, h.2⟩
    · rw [if_neg h, if_pos]
      by_contra hc
      push_neg at hc
      exact h ⟨hc.1, hc.2⟩
  have hneg : b ≤ 0 → size_signal sig b cfg = none := by
    intro h
    rw [size_signal, if_pos h]
  have hcase : ∀ raw : ℚ,
      (if min cfg.max_fraction_per_contract (raw * cfg.kelly_scale)
          < cfg.min_fraction_if_trade then none
        else if b * min cfg.max_fraction_per_contract (raw * cfg.kelly_scale) ≤ 0 then none
        else some (⟨sig, min cfg.max_fraction_per_contract (raw * cfg.kelly_scale),
          b * min cfg.max_fraction_per_contract (raw * cfg.kelly_scale)⟩ : SizedSignal))
      = (if min cfg.max_fraction_per_contract (raw * cfg.kelly_scale)
            < cfg.min_fraction_if_trade
          ∨ b * min cfg.max_fraction_per_contract (raw * cfg.kelly_scale) ≤ 0
        then none
        else some ⟨sig, min cfg.max_fraction_per_contract (raw * cfg.kelly_scale),
          b * min cfg.max_fraction_per_contract (raw * cfg.kelly_scale)⟩) := by
    intro raw
    by_cases h1 : min cfg.max_fraction_per_contract (raw * cfg.kelly_scale)
        < cfg.min_fraction_if_trade
    · rw [if_pos h1, if_pos (Or.inl h1)]
    · rw [if_neg h1]
      by_cases h2 : b * min cfg.max_fraction_per_contract (raw * cfg.kelly_scale) ≤ 0
      · rw [if_pos h2, if_pos (Or.inr h2)]
      · rw [if_neg h2, if_neg]
        push_neg
        exact ⟨not_lt.mp h1, not_le.mp h2⟩
  refine ⟨hyes, hno, hneg, ?_, ?_, by rw [size_signal]; norm_num [sig80, kelly_fraction_yes]⟩
  · intro hb hside
    rw [size_signal, if_neg (not_le.mpr hb)]
    simp only [hside, if_pos rfl]
    exact hcase _
  · intro hb hside
    rw [size_signal, if_neg (not_le.mpr hb)]
    simp only [hside, if_neg (by decide : ¬ ("buy_no" : String) = "buy_yes"), if_pos rfl]
    exact hcase _

/-- C2 witness: a nonpositive bankroll on which the rejection branch of the
specification fires. -/
theorem size_signal_spec_witness : size_signal sig80 0 ⟨3 / 100, 1, 0⟩ = none :=
  (size_signal_spec sig80 0 ⟨3 / 100, 1, 0⟩ 0 0).2.2.1 (by norm_num)

/-- Helper rewrite: the two side strings of the pipeline differ. -/
theorem buy_no_eq_buy_yes_false : (("buy_no" : String) = "buy_yes") = False :=
  eq_false (by decide)

/-- C3: run_backtest folds the rows in order over a single bankroll
accumulator; a settled buy_yes trade with outcome 1 pays stake times one
over price minus one and loses the stake on any other outcome, a settled
buy_no trade with outcome 0 pays stake times one over one-minus-price minus
one and loses the stake on any other outcome, a degenerate price settles to
zero; a row whose signal or sizing is rejected leaves the bankroll
untouched, and a settled row sizes against the current bankroll, adds the
settled profit or loss to it, and records a trade carrying the post-trade
bankroll. -/
theorem backtest_step_spec (rows : List BacktestRow) (row : BacktestRow)
    (start b min_edge : ℚ) (cfg : RiskConfig) (side : String) (p s : ℚ) (o : ℤ) :
    (0 < p → p < 1 → 0 < s → settle_pnl ("buy_yes") p s 1 = s * (1 / p - 1))
    ∧ (0 < p → p < 1 → 0 < s → o ≠ 1 → settle_pnl ("buy_yes") p s o = -s)
    ∧ (0 < p → p < 1 → 0 < s → settle_pnl ("buy_no") p s 0 = s * (1 / (1 - p) - 1))
    ∧ (0 < p → p < 1 → 0 < s → o ≠ 0 → settle_pnl ("buy_no") p s o = -s)
    ∧ (p ≤ 0 ∨ 1 ≤ p → settle_pnl side p s o = 0)
    ∧ (build_signal row.event_id row.contract_ticker row.forecast_probability
        row.market_probability min_edge = none →
      process_rows min_edge cfg (row :: rows) b = process_rows min_edge cfg rows b)
    ∧ (∀ sig, build_signal row.event_id row.contract_ticker row.forecast_probability
        row.market_probability min_edge = some sig →
      size_signal sig b cfg = none →
      process_rows min_edge cfg (row :: rows) b = process_rows min_edge cfg rows b)
    ∧ (∀ sig z, build_signal row.event_id row.contract_ticker row.forecast_probability
        row.market_probability min_edge = some sig →
      size_signal sig b cfg = some z →
      process_rows min_edge cfg (row :: rows) b
        = (⟨row.event_id, row.contract_ticker, sig.side, row.forecast_probability,
            row.market_probability, sig.edge, z.stake_dollars,
            settle_pnl sig.side row.market_probability z.stake_dollars row.outcome,
            row.outcome,
            b + settle_pnl sig.side row.market_probability z.stake_dollars row.outcome,
            row.timestamp⟩
            :: (process_rows min_edge cfg rows
                (b + settle_pnl sig.side row.market_probability z.stake_dollars row.outcome)).1,
          (process_rows min_edge cfg rows
            (b + settle_pnl sig.side row.market_probability z.stake_dollars row.outcome)).2))
    ∧ (run_backtest rows start min_edge cfg).trades = (process_rows min_edge cfg rows start).1
    ∧ (run_backtest rows start min_edge cfg).ending_bankroll
        = (process_rows min_edge cfg rows start).2 := by
  refine ⟨?_, ?_, ?_, ?_, ?_, ?_, ?_, ?_, rfl, rfl⟩
  · intro hp hp1 hs
    have h1 : ¬ s ≤ 0 := not_le.mpr hs
    have h2 : ¬ (p ≤ 0 ∨ 1 ≤ p) := by push_neg; exact ⟨hp, hp1⟩
    simp [settle_pnl, h1, h2]
  · intro hp hp1 hs ho
    have h1 : ¬ s ≤ 0 := not_le.mpr hs
    have h2 : ¬ (p ≤ 0 ∨ 1 ≤ p) := by push_neg; exact ⟨hp, hp1⟩
    simp [settle_pnl, h1, h2, ho]
  · intro hp hp1 hs
    have h1 : ¬ s ≤ 0 := not_le.mpr hs
    have h2 : ¬ (p ≤ 0 ∨ 1 ≤ p) := by push_neg; exact ⟨hp, hp1⟩
    have h3 : ¬ (1 - p ≤ 0) := not_le.mpr (by linarith)
    simp [settle_pnl, h1, h2, h3, buy_no_eq_buy_yes_false]
  · intro hp hp1 hs ho
    have h1 : ¬ s ≤ 0 := not_le.mpr hs
    have h2 : ¬ (p ≤ 0 ∨ 1 ≤ p) := by push_neg; exact ⟨hp, hp1⟩
    have h3 : ¬ (1 - p ≤ 0) := not_le.mpr (by linarith)
    simp [settle_pnl, h1, h2, h3, ho, buy_no_eq_buy_yes_false]
  · intro h
    simp only [settle_pnl]
    by_cases hs : s ≤ 0
    · rw [if_pos hs]
    · rw [if_neg hs, if_pos h]
  · intro h
    simp only [process_rows]
    rw [h]
  · intro sig h hsz
    simp only [process_rows]
    rw [h]
    simp only []
    rw [hsz]
  · intro sig z h hsz
    simp only [process_rows]
    rw [h]
    simp only []
    rw [hsz]

/-- C3 witness: the buy_yes winning payout at price one half and stake one. -/
theorem backtest_step_spec_witness :
    settle_pnl ("buy_yes") (1 / 2) 1 1 = 1 * (1 / (1 / 2) - 1) :=
  (backtest_step_spec [] ⟨("r"), ("c"), 0, 0, 0, none⟩ 0 0 0 ⟨0, 0, 0⟩
    ("x") (1 / 2) 1 1).1 (by norm_num) (by norm_num) (by norm_num)

/-- Concrete rows of the end-to-end backtest scenario of the specification. -/
def demo_rows : List BacktestRow :=
  [⟨("e1"), ("c1"), 7 / 10, 1 / 2, 1, none⟩,
   ⟨("e2"), ("c2"), 3 / 10, 9 / 20, 0, none⟩,
   ⟨("e3"), ("c3"), 57 / 100, 1 / 2, 1, none⟩]

/-- C7: the three-row scenario with starting bankroll 10000, minimum edge
0.10, cap 0.03 and Kelly scale 0.25 settles exactly two trades (the third
row's edge is below the threshold), ends strictly above 10000 and has a
strictly positive win rate. -/
theorem run_backtest_demo :
    (run_backtest demo_rows 10000 (1 / 10) ⟨3 / 100, 1 / 4, 0⟩).total_trades = 2
    ∧ 10000 < (run_backtest demo_rows 10000 (1 / 10) ⟨3 / 100, 1 / 4, 0⟩).ending_bankroll
    ∧ 0 < (run_backtest demo_rows 10000 (1 / 10) ⟨3 / 100, 1 / 4, 0⟩).win_rate := by
  refine ⟨?_, ?_, ?_⟩ <;>
    norm_num [run_backtest, process_rows, build_signal, expected_value_per_dollar,
      size_signal, kelly_fraction_yes, kelly_fraction_no, settle_pnl, demo_rows,
      min_def, max_def, buy_no_eq_buy_yes_false]

theorem build_signal_some_props (eid tick : String) (p m e : ℚ) (sig : Signal)
    (h : build_signal eid tick p m e = some sig) :
    (sig.side = "buy_yes" ∨ sig.side = "buy_no")
    ∧ sig.market_probability = m
    ∧ 0 < sig.expected_value_per_dollar
    ∧ sig.expected_value_per_dollar = expected_value_per_dollar sig.side p m := by
  simp only [build_signal] at h
  by_cases h1 : e ≤ p - m
  · rw [if_pos h1] at h
    simp only [] at h
    by_cases hev : expected_value_per_dollar ("buy_yes") p m ≤ 0
    · rw [if_pos hev] at h
      cases h
    · rw [if_neg hev] at h
      cases h
      exact ⟨Or.inl rfl, rfl, not_le.mp hev, rfl⟩
  · rw [if_neg h1] at h
    by_cases h2 : p - m ≤ -e
    · rw [if_pos h2] at h
      simp only [] at h
      by_cases hev : expected_value_per_dollar ("buy_no") p m ≤ 0
      · rw [if_pos hev] at h
        cases h
      · rw [if_neg hev] at h
        cases h
        exact ⟨Or.inr rfl, rfl, not_le.mp hev, rfl⟩
    · rw [if_neg h2] at h
      cases h

theorem ev_pos_market_mem (side : String) (p m : ℚ)
    (hside : side = "buy_yes" ∨ side = "buy_no")
    (h : 0 < expected_value_per_dollar side p m) : 0 < m ∧ m < 1 := by
  rcases hside with hs | hs <;> subst hs
  · rw [expected_value_per_dollar, if_pos rfl] at h
    by_cases hc : m ≤ 0 ∨ 1 ≤ m
    · rw [if_pos hc] at h
      exact absurd h (lt_irrefl 0)
    · push_neg at hc
      exact ⟨hc.1, hc.2⟩
  · rw [expected_value_per_dollar,
      if_neg (by decide : ¬ ("buy_no" : String) = "buy_yes"), if_pos rfl] at h
    by_cases hc : 1 - m ≤ 0 ∨ 1 ≤ 1 - m
    · rw [if_pos hc] at h
      exact absurd h (lt_irrefl 0)
    · push_neg at hc
      constructor <;> linarith [hc.1, hc.2]

theorem size_signal_some_props (sig : Signal) (b : ℚ) (cfg : RiskConfig) (z : SizedSignal)
    (h : size_signal sig b cfg = some z) :
    0 < z.stake_dollars
    ∧ z.stake_dollars = b * z.fraction_of_bankroll
    ∧ z.fraction_of_bankroll ≤ cfg.max_fraction_per_contract := by
  simp only [size_signal] at h
  by_cases hb : b ≤ 0
  · rw [if_pos hb] at h
    cases h
  · rw [if_neg hb] at h
    have inner : ∀ raw : ℚ,
        (if min cfg.max_fraction_per_contract (raw * cfg.kelly_scale)
            < cfg.min_fraction_if_trade then none
          else if b * min cfg.max_fraction_per_contract (raw * cfg.kelly_scale) ≤ 0 then none
          else some (⟨sig, min cfg.max_fraction_per_contract (raw * cfg.kelly_scale),
            b * min cfg.max_fraction_per_contract (raw * cfg.kelly_scale)⟩ : SizedSignal))
          = some z →
        0 < z.stake_dollars
        ∧ z.stake_dollars = b * z.fraction_of_bankroll
        ∧ z.fraction_of_bankroll ≤ cfg.max_fraction_per_contract := by
      intro raw h'
      by_cases hf : min cfg.max_fraction_per_contract (raw * cfg.kelly_scale)
          < cfg.min_fraction_if_trade
      · rw [if_pos hf] at h'
        cases h'
      · rw [if_neg hf] at h'
        by_cases hst : b * min cfg.max_fraction_per_contract (raw * cfg.kelly_scale) ≤ 0
        · rw [if_pos hst] at h'
          cases h'
        · rw [if_neg hst] at h'
          cases h'
          exact ⟨not_le.mp hst, rfl, min_le_left _ _⟩
    by_cases hy : sig.side = "buy_yes"
    · rw [if_pos hy] at h
      simp only [] at h
      exact inner _ h
    · rw [if_neg hy] at h
      by_cases hn : sig.side = "buy_no"
      · rw [if_pos hn] at h
        simp only [] at h
        exact inner _ h
      · rw [if_neg hn] at h
        cases h

theorem settle_pnl_ne_zero (side : String) (m s : ℚ) (o : ℤ)
    (hside : side = "buy_yes" ∨ side = "buy_no")
    (hm : 0 < m) (hm1 : m < 1) (hs : 0 < s) :
    settle_pnl side m s o ≠ 0 := by
  have h1 : ¬ s ≤ 0 := not_le.mpr hs
  have h2 : ¬ (m ≤ 0 ∨ 1 ≤ m) := by push_neg; exact ⟨hm, hm1⟩
  have h3 : ¬ (1 - m ≤ 0) := not_le.mpr (by linarith)
  have hy : 0 < 1 / m - 1 := by
    have := (lt_div_iff₀ hm).mpr (show (1 : ℚ) * m < 1 by linarith)
    linarith
  have hn : 0 < 1 / (1 - m) - 1 := by
    have h1m : 0 < 1 - m := by linarith
    have := (lt_div_iff₀ h1m).mpr (show (1 : ℚ) * (1 - m) < 1 by linarith)
    linarith
  rcases hside with h | h <;> subst h
  · by_cases ho : o = 1
    · have he : settle_pnl ("buy_yes") m s o = s * (1 / m - 1) := by
        simp [settle_pnl, h1, h2, ho]
      rw [he]
      exact ne_of_gt (mul_pos hs hy)
    · have he : settle_pnl ("buy_yes") m s o = -s := by
        simp [settle_pnl, h1, h2, ho]
      rw [he]
      exact ne_of_lt (by linarith)
  · by_cases ho : o = 0
    · have he : settle_pnl ("buy_no") m s o = s * (1 / (1 - m) - 1) := by
        simp [settle_pnl, h1, h2, h3, ho, buy_no_eq_buy_yes_false]
      rw [he]
      exact ne_of_gt (mul_pos hs hn)
    · have he : settle_pnl ("buy_no") m s o = -s := by
        simp [settle_pnl, h1, h2, h3, ho, buy_no_eq_buy_yes_false]
      rw [he]
      exact ne_of_lt (by linarith)

theorem settle_pnl_ge_neg_stake (side : String) (m s : ℚ) (o : ℤ) (hs : 0 < s) :
    -s ≤ settle_pnl side m s o := by
  simp only [settle_pnl]
  split_ifs with h1 h2 h3 h4 h5 h6 h7
  · linarith
  · linarith
  · push_neg at h2
    have hym : 1 ≤ 1 / m := by
      rw [le_div_iff₀ h2.1]
      linarith [h2.2]
    nlinarith
  · linarith
  · linarith
  · push_neg at h2
    have hpn : 0 < 1 - m := not_le.mp h6
    have hyn : 1 ≤ 1 / (1 - m) := by
      rw [le_div_iff₀ hpn]
      linarith [h2.1]
    nlinarith
  · linarith
  · linarith

theorem process_rows_cons_none (min_edge : ℚ) (cfg : RiskConfig) (row : BacktestRow)
    (rows : List BacktestRow) (b : ℚ)
    (hbs : build_signal row.event_id row.contract_ticker row.forecast_probability
      row.market_probability min_edge = none) :
    process_rows min_edge cfg (row :: rows) b = process_rows min_edge cfg rows b := by
  simp only [process_rows]
  rw [hbs]

theorem process_rows_cons_nosize (min_edge : ℚ) (cfg : RiskConfig) (row : BacktestRow)
    (rows : List BacktestRow) (b : ℚ) (sig : Signal)
    (hbs : build_signal row.event_id row.contract_ticker row.forecast_probability
      row.market_probability min_edge = some sig)
    (hsz : size_signal sig b cfg = none) :
    process_rows min_edge cfg (row :: rows) b = process_rows min_edge cfg rows b := by
  simp only [process_rows]
  rw [hbs]
  simp only []
  rw [hsz]

theorem process_rows_cons_settled (min_edge : ℚ) (cfg : RiskConfig) (row : BacktestRow)
    (rows : List BacktestRow) (b : ℚ) (sig : Signal) (z : SizedSignal)
    (hbs : build_signal row.event_id row.contract_ticker row.forecast_probability
      row.market_probability min_edge = some sig)
    (hsz : size_signal sig b cfg = some z) :
    process_rows min_edge cfg (row :: rows) b
      = (⟨row.event_id, row.contract_ticker, sig.side, row.forecast_probability,
          row.market_probability, sig.edge, z.stake_dollars,
          settle_pnl sig.side row.market_probability z.stake_dollars row.outcome,
          row.outcome,
          b + settle_pnl sig.side row.market_probability z.stake_dollars row.outcome,
          row.timestamp⟩
          :: (process_rows min_edge cfg rows
              (b + settle_pnl sig.side row.market_probability z.stake_dollars row.outcome)).1,
        (process_rows min_edge cfg rows
          (b + settle_pnl sig.side row.market_probability z.stake_dollars row.outcome)).2) := by
  simp only [process_rows]
  rw [hbs]
  simp only []
  rw [hsz]

theorem process_rows_trades_pnl_ne (min_edge : ℚ) (cfg : RiskConfig) :
    ∀ (rows : List BacktestRow) (b : ℚ) (t : SettledTrade),
      t ∈ (process_rows min_edge cfg rows b).1 → t.pnl_dollars ≠ 0 := by
  intro rows
  induction rows with
  | nil =>
    intro b t ht
    simp [process_rows] at ht
  | cons row rest ih =>
    intro b t ht
    cases hbs : build_signal row.event_id row.contract_ticker row.forecast_probability
        row.market_probability min_edge with
    | none =>
      rw [process_rows_cons_none min_edge cfg row rest b hbs] at ht
      exact ih b t ht
    | some sig =>
      cases hsz : size_signal sig b cfg with
      | none =>
        rw [process_rows_cons_nosize min_edge cfg row rest b sig hbs hsz] at ht
        exact ih b t ht
      | some z =>
        rw [process_rows_cons_settled min_edge cfg row rest b sig z hbs hsz] at ht
        rcases List.mem_cons.mp ht with h | h
        · obtain ⟨hside, hmkt, hev, hevf⟩ := build_signal_some_props _ _ _ _ _ _ hbs
          obtain ⟨hm0, hm1⟩ := ev_pos_market_mem _ _ _ hside (hevf ▸ hev)
          obtain ⟨hstake, -, -⟩ := size_signal_some_props _ _ _ _ hsz
          subst h
          exact settle_pnl_ne_zero sig.side row.market_probability z.stake_dollars
            row.outcome hside (hmkt ▸ hm0) (hmkt ▸ hm1) hstake
        · exact ih _ t h

theorem countP_pos_add_countP_neg :
    ∀ (l : List SettledTrade), (∀ t ∈ l, t.pnl_dollars ≠ 0) →
      l.countP (fun t => decide (0 < t.pnl_dollars))
        + l.countP (fun t => decide (t.pnl_dollars < 0)) = l.length := by
  intro l
  induction l with
  | nil => intro _; rfl
  | cons t ts ih =>
    intro h
    have ht := h t (List.mem_cons_self t ts)
    have hts : ∀ x ∈ ts, x.pnl_dollars ≠ 0 :=
      fun x hx => h x (List.mem_cons_of_mem t hx)
    have hrec := ih hts
    rcases lt_or_gt_of_ne ht with hneg | hpos
    · have e1 : (decide (0 < t.pnl_dollars)) = false := by simp [lt_asymm hneg]
      have e2 : (decide (t.pnl_dollars < 0)) = true := by simp [hneg]
      simp only [List.countP_cons, e1, e2, if_true, if_false, Bool.false_eq_true,
        List.length_cons]
      omega
    · have e1 : (decide (0 < t.pnl_dollars)) = true := by simp [hpos]
      have e2 : (decide (t.pnl_dollars < 0)) = false := by simp [lt_asymm hpos]
      simp only [List.countP_cons, e1, e2, if_true, if_false, Bool.false_eq_true,
        List.length_cons]
      omega

/-- C9: every settled trade has strictly nonzero profit or loss, so winning
and losing trades partition the settled trades exactly. -/
theorem backtest_win_loss_partition (rows : List BacktestRow) (start min_edge : ℚ)
    (cfg : RiskConfig) :
    (∀ t ∈ (run_backtest rows start min_edge cfg).trades, t.pnl_dollars ≠ 0)
    ∧ (run_backtest rows start min_edge cfg).winning_trades
        + (run_backtest rows start min_edge cfg).losing_trades
        = (run_backtest rows start min_edge cfg).total_trades := by
  have hall : ∀ t ∈ (process_rows min_edge cfg rows start).1, t.pnl_dollars ≠ 0 :=
    fun t ht => process_rows_trades_pnl_ne min_edge cfg rows start t ht
  exact ⟨hall, countP_pos_add_countP_neg _ hall⟩

/-- C9 witness: the partition identity on a concrete one-row backtest. -/
theorem backtest_win_loss_partition_witness :
    (run_backtest [⟨("w1"), ("wc"), 7 / 10, 1 / 2, 1, none⟩] 1000 (1 / 10)
        ⟨3 / 100, 1, 0⟩).winning_trades
      + (run_backtest [⟨("w1"), ("wc"), 7 / 10, 1 / 2, 1, none⟩] 1000 (1 / 10)
        ⟨3 / 100, 1, 0⟩).losing_trades
      = (run_backtest [⟨("w1"), ("wc"), 7 / 10, 1 / 2, 1, none⟩] 1000 (1 / 10)
        ⟨3 / 100, 1, 0⟩).total_trades :=
  (backtest_win_loss_partition [⟨("w1"), ("wc"), 7 / 10, 1 / 2, 1, none⟩] 1000 (1 / 10)
    ⟨3 / 100, 1, 0⟩).2

theorem process_rows_bankroll_pos (min_edge : ℚ) (cfg : RiskConfig)
    (hcap : cfg.max_fraction_per_contract < 1) :
    ∀ (rows : List BacktestRow) (b : ℚ), 0 < b →
      (∀ t ∈ (process_rows min_edge cfg rows b).1, 0 < t.bankroll_after)
      ∧ 0 < (process_rows min_edge cfg rows b).2 := by
  intro rows
  induction rows with
  | nil =>
    intro b hb
    constructor
    · intro t ht
      simp [process_rows] at ht
    · simpa [process_rows] using hb
  | cons row rest ih =>
    intro b hb
    cases hbs : build_signal row.event_id row.contract_ticker row.forecast_probability
        row.market_probability min_edge with
    | none =>
      rw [process_rows_cons_none min_edge cfg row rest b hbs]
      exact ih b hb
    | some sig =>
      cases hsz : size_signal sig b cfg with
      | none =>
        rw [process_rows_cons_nosize min_edge cfg row rest b sig hbs hsz]
        exact ih b hb
      | some z =>
        obtain ⟨hstake, hstake_eq, hfr⟩ := size_signal_some_props sig b cfg z hsz
        have hfr_pos : 0 < z.fraction_of_bankroll := by
          by_contra hneg
          push_neg at hneg
          have : z.stake_dollars ≤ 0 := by
            rw [hstake_eq]
            exact mul_nonpos_iff.mpr (Or.inl ⟨hb.le, hneg⟩)
          linarith
        have hb' : 0 < b
            + settle_pnl sig.side row.market_probability z.stake_dollars row.outcome := by
          have hge := settle_pnl_ge_neg_stake sig.side row.market_probability
            z.stake_dollars row.outcome hstake
          have hpos : 0 < b * (1 - z.fraction_of_bankroll) :=
            mul_pos hb (by linarith [lt_of_le_of_lt hfr hcap])
          have heq : b - z.stake_dollars = b * (1 - z.fraction_of_bankroll) := by
            rw [hstake_eq]
            ring
          linarith
        rw [process_rows_cons_settled min_edge cfg row rest b sig z hbs hsz]
        obtain ⟨ih1, ih2⟩ := ih
          (b + settle_pnl sig.side row.market_probability z.stake_dollars row.outcome) hb'
        constructor
        · intro t ht
          rcases List.mem_cons.mp ht with h | h
          · subst h
            exact hb'
          · exact ih1 t h
        · exact ih2

/-- C10: with a strictly positive starting bankroll and a per-contract cap
strictly below one, every settled trade leaves a strictly positive bankroll
and the ending bankroll is strictly positive: each stake is the current
bankroll times a bounded fraction not exceeding the cap, and the worst case
loses exactly the stake. -/
theorem backtest_bankroll_stays_positive (rows : List BacktestRow)
    (start min_edge : ℚ) (cfg : RiskConfig)
    (hstart : 0 < start) (hcap : cfg.max_fraction_per_contract < 1) :
    (∀ t ∈ (run_backtest rows start min_edge cfg).trades, 0 < t.bankroll_after)
    ∧ 0 < (run_backtest rows start min_edge cfg).ending_bankroll :=
  process_rows_bankroll_pos min_edge cfg hcap rows start hstart

/-- C10 witness: positivity of the ending bankroll on a concrete one-row
backtest started at a positive bankroll under a cap below one. -/
theorem backtest_bankroll_stays_positive_witness :
    0 < (run_backtest [⟨("w2"), ("wd"), 3 / 10, 9 / 20, 0, none⟩] 500 (1 / 10)
      ⟨3 / 100, 1, 0⟩).ending_bankroll :=
  (backtest_bankroll_stays_positive [⟨("w2"), ("wd"), 3 / 10, 9 / 20, 0, none⟩] 500 (1 / 10)
    ⟨3 / 100, 1, 0⟩ (by norm_num) (by norm_num)).2

theorem cumulative_walk_chain (row : List ℚ) :
    (∀ prev : ℚ, (cumulative_walk (some prev) row = true
      ↔ List.Chain' (fun a b => a ≤ b + 1 / 1000000)
          (prev :: row.filter is_valid_value)))
    ∧ (cumulative_walk none row = true
      ↔ List.Chain' (fun a b => a ≤ b + 1 / 1000000) (row.filter is_valid_value)) := by
  induction row with
  | nil =>
    constructor
    · intro prev
      simp [cumulative_walk]
    · simp [cumulative_walk]
  | cons v rest ih =>
    by_cases hv : is_valid_value v
    · have hfil : (v :: rest).filter is_valid_value = v :: rest.filter is_valid_value :=
        List.filter_cons_of_pos hv
    
      constructor
      · intro prev
        rw [hfil]
        simp only [cumulative_walk]
        rw [if_neg (not_not_intro hv)]
        by_cases hlt : v + 1 / 1000000 < prev
        · rw [if_pos hlt]
          rw [List.chain'_cons]
          simp only [Bool.false_eq_true, false_iff, not_and]
          intro h1
          exact absurd h1 (not_le.mpr hlt)
        · rw [if_neg hlt]
          rw [List.chain'_cons]
          rw [ih.1 v]
          constructor
          · intro hc
            exact ⟨not_lt.mp hlt, hc⟩
          · intro hc
            exact hc.2
      · rw [hfil]
        simp only [cumulative_walk]
        rw [if_neg (not_not_intro hv)]
        exact ih.1 v
    · have hfil : (v :: rest).filter is_valid_value = rest.filter is_valid_value :=
        List.filter_cons_of_neg hv
      constructor
      · intro prev
        rw [hfil]
        simp only [cumulative_walk]
        rw [if_pos hv]
        exact ih.1 prev
      · rw [hfil]
        simp only [cumulative_walk]
        rw [if_pos hv]
        exact ih.2

/-- C6: the cumulative-matrix classifier returns true exactly when, in every
member row, the valid values taken in time order are non-decreasing within
the tolerance of one millionth; a decrease beyond the tolerance between two
consecutive valid values of any member makes it return false, the
classification covering the whole matrix. -/
theorem is_cumulative_matrix_spec (matrix : List (List ℚ)) :
    is_cumulative_matrix matrix = true
      ↔ ∀ row ∈ matrix, List.Chain' (fun a b => a ≤ b + 1 / 1000000)
          (row.filter is_valid_value) := by
  rw [is_cumulative_matrix, List.all_eq_true]
  constructor
  · intro h row hrow
    exact (cumulative_walk_chain row).2.mp (h row hrow)
  · intro h row hrow
    exact (cumulative_walk_chain row).2.mpr (h row hrow)

/-- C6 witness: a concrete two-member matrix with non-decreasing valid
values on which the classifier returns true. -/
theorem is_cumulative_matrix_spec_witness :
    is_cumulative_matrix [[0, 5], [1, 1]] = true := by
  apply (is_cumulative_matrix_spec [[0, 5], [1, 1]]).mpr
  intro row hrow
  have hv0 : is_valid_value 0 = true := by
    rw [is_valid_value, FILL_VALUE]
    norm_num
  have hv5 : is_valid_value 5 = true := by
    rw [is_valid_value, FILL_VALUE]
    norm_num
  have hv1 : is_valid_value 1 = true := by
    rw [is_valid_value, FILL_VALUE]
    norm_num
  simp only [List.mem_cons, List.not_mem_nil, or_false] at hrow
  rcases hrow with h | h
  · subst h
    rw [List.filter_cons_of_pos hv0, List.filter_cons_of_pos hv5, List.filter_nil]
    rw [List.chain'_cons]
    exact ⟨by norm_num, List.chain'_singleton 5⟩
  · subst h
    rw [List.filter_cons_of_pos hv1, List.filter_cons_of_pos hv1, List.filter_nil]
    rw [List.chain'_cons]
    exact ⟨by norm_num, List.chain'_singleton 1⟩

theorem filterMap_length_eq_countP {α β : Type} (f : α → Option β) :
    ∀ l : List α, (l.filterMap f).length = l.countP (fun a => (f a).isSome) := by
  intro l
  induction l with
  | nil => rfl
  | cons a as ih =>
    rw [List.filterMap_cons]
    cases ha : f a with
    | none => simp [ha, List.countP_cons, ih]
    | some b => simp [ha, List.countP_cons, ih]

theorem filterMap_countP_eq {α β : Type} (f : α → Option β) (p : β → Bool) :
    ∀ l : List α, (l.filterMap f).countP p = l.countP (fun a => (f a).any p) := by
  intro l
  induction l with
  | nil => rfl
  | cons a as ih =>
    rw [List.filterMap_cons]
    cases ha : f a with
    | none => simp [ha, List.countP_cons, ih]
    | some b => simp [ha, List.countP_cons, ih]

theorem member_max_isSome_eq_any (row : List ℚ) :
    (member_max row).isSome = row.any is_valid_value := by
  cases hany : row.any is_valid_value with
  | true =>
    obtain ⟨x, hx, hpx⟩ := List.any_eq_true.mp hany
    have hne : row.filter is_valid_value ≠ [] := fun hnil =>
      (List.filter_eq_nil_iff.mp hnil x hx) hpx
    rw [member_max]
    cases hmax : (row.filter is_valid_value).max? with
    | none => exact absurd (List.max?_eq_none_iff.mp hmax) hne
    | some m => rfl
  | false =>
    have hnil : row.filter is_valid_value = [] := by
      rw [List.filter_eq_nil_iff]
      intro a ha hpa
      have hcontra := List.any_eq_true.mpr ⟨a, ha, hpa⟩
      rw [hany] at hcontra
      cases hcontra
    rw [member_max, hnil]
    rfl

/-- C4: the temperature calculator fails exactly when every member lacks
valid data, and otherwise its probability equals the number of members whose
maximum valid value reaches the threshold converted to Kelvin divided by the
number of members holding at least one valid value, a ratio lying between 0
and 1 inclusive. -/
theorem temperature_probability_spec (matrix : List (List ℚ)) (threshold_f : ℚ) :
    (compute_temperature_event_probability matrix (fahrenheit_to_kelvin threshold_f) = none
      ↔ ∀ row ∈ matrix, ∀ v ∈ row, ¬ is_valid_value v = true)
    ∧ ((∃ row ∈ matrix, ∃ v ∈ row, is_valid_value v = true) →
      ∀ prob, compute_temperature_event_probability matrix (fahrenheit_to_kelvin threshold_f)
          = some prob →
        prob = (matrix.countP (fun row => (member_max row).any
              (fun v => decide (fahrenheit_to_kelvin threshold_f ≤ v))) : ℚ)
            / (matrix.countP (fun row => row.any is_valid_value) : ℚ)
        ∧ 0 ≤ prob ∧ prob ≤ 1) := by
  constructor
  · rw [compute_temperature_event_probability]
    constructor
    · intro h row hrow v hv hvalid
      by_cases he : (matrix.filterMap member_max).isEmpty
      · rw [List.isEmpty_iff] at he
        have hmm := List.filterMap_eq_nil_iff.mp he row hrow
        rw [member_max, List.max?_eq_none_iff] at hmm
        exact (List.filter_eq_nil_iff.mp hmm v hv) hvalid
      · rw [if_neg he] at h
        cases h
    · intro h
      have he : matrix.filterMap member_max = [] := by
        rw [List.filterMap_eq_nil_iff]
        intro row hrow
        rw [member_max, List.max?_eq_none_iff, List.filter_eq_nil_iff]
        intro v hv
        exact h row hrow v hv
      simp [he]
  · rintro ⟨row0, hrow0, v0, hv0, hval0⟩ prob hp
    rw [compute_temperature_event_probability] at hp
    have hne : matrix.filterMap member_max ≠ [] := by
      intro he
      have hmm := List.filterMap_eq_nil_iff.mp he row0 hrow0
      rw [member_max, List.max?_eq_none_iff, List.filter_eq_nil_iff] at hmm
      exact hmm v0 hv0 hval0
    rw [if_neg (fun hh => hne (List.isEmpty_iff.mp hh))] at hp
    have hlen_pos : 0 < (matrix.filterMap member_max).length :=
      List.length_pos.mpr hne
    cases hp
    have hden : matrix.countP (fun a => (member_max a).isSome)
        = matrix.countP (fun row => row.any is_valid_value) :=
      List.countP_congr (fun x _ => by rw [member_max_isSome_eq_any x])
    refine ⟨?_, ?_, ?_⟩
    · rw [filterMap_countP_eq, filterMap_length_eq_countP, hden]
    · positivity
    · apply div_le_one_of_le₀
      · exact_mod_cast List.countP_le_length _
      · positivity

example : compute_temperature_event_probability [[300]] (fahrenheit_to_kelvin 85) = some 0 := by
  rw [compute_temperature_event_probability]
  norm_num [member_max, is_valid_value, FILL_VALUE, fahrenheit_to_kelvin,
    List.filterMap_cons, List.filter, List.max?, List.countP, List.countP.go]

theorem first_valid_eq_head_filter : ∀ values : List ℚ,
    first_valid values = (values.filter is_valid_value).head? := by
  intro values
  induction values with
  | nil => rfl
  | cons v rest ih =>
    by_cases hv : is_valid_value v
    · simp only [first_valid]
      rw [if_pos hv, List.filter_cons_of_pos hv]
      rfl
    · simp only [first_valid]
      rw [if_neg hv, List.filter_cons_of_neg hv, ih]

theorem last_valid_eq_getLast_filter (values : List ℚ) :
    last_valid values = (values.filter is_valid_value).getLast? := by
  rw [last_valid, first_valid_eq_head_filter, List.filter_reverse,
    List.head?_reverse]

/-- C5: over the widened fetch window, a cumulative member total is the last
valid value of the target window minus the last valid value before the
window start (or the first valid value of the window when no pre-window step
exists), floored at 0; an incremental member total is the sum of the valid
values of the target window; a member without a computable total is excluded,
and the probability denominator counts exactly the members with one. -/
theorem precip_member_total_spec (matrix : List (List ℚ)) (window_offset : ℕ)
    (row : List ℚ) (threshold_mm : ℚ) :
    (last_valid row = (row.filter is_valid_value).getLast?)
    ∧ (first_valid row = (row.filter is_valid_value).head?)
    ∧ (precip_member_total true window_offset row
      = if window_offset < row.length then
          (match ((row.drop window_offset).filter is_valid_value).getLast?,
              (if 0 < window_offset
                then ((row.take window_offset).filter is_valid_value).getLast?
                else ((row.drop window_offset).filter is_valid_value).head?) with
            | some e, some b => some (max 0 (e - b))
            | _, _ => none)
        else none)
    ∧ (precip_member_total false window_offset row
      = if window_offset < row.length then
          some (((row.drop window_offset).filter is_valid_value).sum)
        else none)
    ∧ (compute_precip_event_probability matrix window_offset threshold_mm = none
      ↔ ∀ r ∈ matrix,
          precip_member_total (is_cumulative_matrix matrix) window_offset r = none)
    ∧ (∀ prob, compute_precip_event_probability matrix window_offset threshold_mm
          = some prob →
        prob = (matrix.countP (fun r =>
              (precip_member_total (is_cumulative_matrix matrix) window_offset r).any
                (fun t => decide (threshold_mm ≤ t))) : ℚ)
            / (matrix.countP (fun r =>
              (precip_member_total (is_cumulative_matrix matrix) window_offset r).isSome)
              : ℚ)) := by
  have hempty : ((row.drop window_offset).isEmpty = true) ↔ row.length ≤ window_offset := by
    rw [List.isEmpty_iff, List.drop_eq_nil_iff]
  refine ⟨last_valid_eq_getLast_filter row, first_valid_eq_head_filter row, ?_, ?_, ?_, ?_⟩
  · by_cases hlen : window_offset < row.length
    · have hne : ¬ (row.drop window_offset).isEmpty = true := by
        rw [hempty]
        omega
      rw [if_pos hlen]
      simp only [precip_member_total]
      rw [if_neg hne]
      simp only [if_true]
      rw [last_valid_eq_getLast_filter, first_valid_eq_head_filter,
        last_valid_eq_getLast_filter]
    · have he : (row.drop window_offset).isEmpty = true := by
        rw [hempty]
        omega
      rw [if_neg hlen]
      simp only [precip_member_total]
      rw [if_pos he]
  · by_cases hlen : window_offset < row.length
    · have hne : ¬ (row.drop window_offset).isEmpty = true := by
        rw [hempty]
        omega
      rw [if_pos hlen]
      simp only [precip_member_total]
      rw [if_neg hne]
      rw [if_neg Bool.false_ne_true]
    · have he : (row.drop window_offset).isEmpty = true := by
        rw [hempty]
        omega
      rw [if_neg hlen]
      simp only [precip_member_total]
      rw [if_pos he]
  · rw [compute_precip_event_probability]
    constructor
    · intro h
      by_cases he : (matrix.filterMap
          (precip_member_total (is_cumulative_matrix matrix) window_offset)).isEmpty
      · rw [List.isEmpty_iff] at he
        exact List.filterMap_eq_nil_iff.mp he
      · rw [if_neg he] at h
        cases h
    · intro h
      have he : matrix.filterMap
          (precip_member_total (is_cumulative_matrix matrix) window_offset) = [] :=
        List.filterMap_eq_nil_iff.mpr h
      simp [he]
  · intro prob hp
    rw [compute_precip_event_probability] at hp
    by_cases he : (matrix.filterMap
        (precip_member_total (is_cumulative_matrix matrix) window_offset)).isEmpty
    · rw [if_pos he] at hp
      cases hp
    · rw [if_neg he] at hp
      cases hp
      rw [filterMap_countP_eq, filterMap_length_eq_countP]

/-- C4 witness: a one-member matrix holding the valid value 300, on which
the probability branch of the specification fires with probability 0 at a
threshold of 85 degrees Fahrenheit. -/
theorem temperature_probability_spec_witness :
    (0 : ℚ) = (([[300]] : List (List ℚ)).countP (fun row => (member_max row).any
          (fun v => decide (fahrenheit_to_kelvin 85 ≤ v))) : ℚ)
        / (([[300]] : List (List ℚ)).countP (fun row => row.any is_valid_value) : ℚ)
    ∧ (0 : ℚ) ≤ 0 ∧ (0 : ℚ) ≤ 1 :=
  (temperature_probability_spec [[300]] 85).2
    ⟨[300], by simp, 300, by simp, by rw [is_valid_value, FILL_VALUE]; norm_num⟩
    0 (by
      rw [compute_temperature_event_probability]
      norm_num [member_max, is_valid_value, FILL_VALUE, fahrenheit_to_kelvin,
        List.filterMap_cons, List.filter, List.max?, List.countP, List.countP.go])

/-- C5 witness: a one-member cumulative matrix over a widened window with
offset one, total 3 millimetres, crossing a 2 millimetre threshold with
probability 1. -/
theorem precip_member_total_spec_witness :
    (1 : ℚ) = (([[0, 3]] : List (List ℚ)).countP (fun r =>
          (precip_member_total (is_cumulative_matrix [[0, 3]]) 1 r).any
            (fun t => decide ((2 : ℚ) ≤ t))) : ℚ)
        / (([[0, 3]] : List (List ℚ)).countP (fun r =>
          (precip_member_total (is_cumulative_matrix [[0, 3]]) 1 r).isSome) : ℚ) :=
  (precip_member_total_spec [[0, 3]] 1 [0, 3] 2).2.2.2.2.2 1 (by
    rw [compute_precip_event_probability]
    norm_num [precip_member_total, is_cumulative_matrix, cumulative_walk,
      last_valid, first_valid, is_valid_value, FILL_VALUE, List.filterMap_cons,
      List.filter, List.countP, List.countP.go, List.all])

theorem pyRound_le_add_half (q : ℚ) : (pyRound q : ℚ) ≤ q + 1 / 2 := by
  have hfl := Int.floor_le q
  have hfu := Int.lt_floor_add_one q
  simp only [pyRound]
  split_ifs with ha hb hc
  · linarith
  · push_cast
    linarith
  · linarith
  · have hle := not_lt.mp ha
    have hge := not_lt.mp hb
    push_cast
    linarith

theorem sub_half_le_pyRound (q : ℚ) : q - 1 / 2 ≤ (pyRound q : ℚ) := by
  have hfl := Int.floor_le q
  have hfu := Int.lt_floor_add_one q
  simp only [pyRound]
  split_ifs with ha hb hc
  · linarith
  · push_cast
    linarith
  · have hle := not_lt.mp ha
    linarith
  · push_cast
    have hle := not_lt.mp ha
    linarith

theorem pyRound_nonneg (q : ℚ) (h : 0 ≤ q) : 0 ≤ pyRound q := by
  have hf : 0 ≤ ⌊q⌋ := Int.floor_nonneg.mpr h
  simp only [pyRound]
  split_ifs <;> omega

theorem pyRound_le_int (q : ℚ) (n : ℤ) (h : q ≤ (n : ℚ)) : pyRound q ≤ n := by
  have h1 := pyRound_le_add_half q
  have h2 : (pyRound q : ℚ) < (n : ℚ) + 1 := by linarith
  have h3 : pyRound q < n + 1 := by exact_mod_cast h2
  omega

theorem wrap360_nonneg (q : ℚ) : 0 ≤ wrap360 q := by
  have h := Int.floor_le (q / 360)
  have h2 : (⌊q / 360⌋ : ℚ) * 360 ≤ q / 360 * 360 :=
    mul_le_mul_of_nonneg_right h (by norm_num)
  rw [div_mul_cancel₀ q (by norm_num : (360 : ℚ) ≠ 0)] at h2
  rw [wrap360]
  linarith

theorem wrap360_lt (q : ℚ) : wrap360 q < 360 := by
  have h := Int.lt_floor_add_one (q / 360)
  have h2 : q / 360 * 360 < ((⌊q / 360⌋ : ℚ) + 1) * 360 :=
    mul_lt_mul_of_pos_right h (by norm_num)
  rw [div_mul_cancel₀ q (by norm_num : (360 : ℚ) ≠ 0)] at h2
  rw [wrap360]
  linarith

theorem wrap360_add_int_mul (q : ℚ) (k : ℤ) :
    wrap360 (q + 360 * (k : ℚ)) = wrap360 q := by
  have hdiv : (q + 360 * (k : ℚ)) / 360 = q / 360 + (k : ℚ) := by ring
  rw [wrap360, wrap360, hdiv, Int.floor_add_int]
  push_cast
  ring

theorem circDist_le_abs (a b : ℚ) : circDist a b ≤ |a - b| := by
  rw [circDist]
  rcases le_or_lt 0 (a - b) with h | h
  · refine le_trans (min_le_left _ _) ?_
    rw [abs_of_nonneg h, wrap360]
    have hf : 0 ≤ ⌊(a - b) / 360⌋ := Int.floor_nonneg.mpr (by positivity)
    have hf' : (0 : ℚ) ≤ (⌊(a - b) / 360⌋ : ℚ) := by exact_mod_cast hf
    linarith
  · refine le_trans (min_le_right _ _) ?_
    rw [abs_of_neg h, wrap360]
    have hd : (a - b) / 360 < 0 := div_neg_of_neg_of_pos h (by norm_num)
    have hf : ⌊(a - b) / 360⌋ ≤ -1 := by
      have hc : ¬ (0 ≤ ⌊(a - b) / 360⌋) :=
        fun hc => absurd (Int.floor_nonneg.mp hc) (not_le.mpr hd)
      omega
    have hf' : (⌊(a - b) / 360⌋ : ℚ) ≤ -1 := by exact_mod_cast hf
    linarith

theorem circDist_sub_int_mul_left (a b : ℚ) (k : ℤ) :
    circDist (a - 360 * (k : ℚ)) b = circDist a b := by
  rw [circDist, circDist]
  have hd : a - 360 * (k : ℚ) - b = (a - b) + 360 * ((-k : ℤ) : ℚ) := by
    push_cast
    ring
  rw [hd, wrap360_add_int_mul]

theorem circDist_add_int_mul_right (a b : ℚ) (m : ℤ) :
    circDist a (b + 360 * (m : ℚ)) = circDist a b := by
  rw [circDist, circDist]
  have hd : a - (b + 360 * (m : ℚ)) = (a - b) + 360 * ((-m : ℤ) : ℚ) := by
    push_cast
    ring
  rw [hd, wrap360_add_int_mul]

/-- C8 counterexample: the longitude one tenth of a degree west of the
prime meridian normalizes to 359.9, rounds to longitude index 720, and is
clamped to index 719, whose grid longitude of -0.5 lies 0.4 degrees from
the original, beyond the claimed quarter-degree bound both as a plain
difference and around the circle. -/
theorem grid_round_trip_counterexample :
    nearest_grid_indices 0 (-1 / 10) = some (180, 719)
    ∧ grid_coords_from_indices 180 719 = (0, -1 / 2)
    ∧ ¬ (|(grid_coords_from_indices 180 719).2 - (-1 / 10)| ≤ 1 / 4)
    ∧ ¬ (circDist (grid_coords_from_indices 180 719).2 (-1 / 10) ≤ 1 / 4) := by
  refine ⟨?_, ?_, ?_, ?_⟩
  · rw [nearest_grid_indices]
    norm_num [wrap360, pyRound, min_def, max_def]
  · rw [grid_coords_from_indices]
    norm_num [wrap360]
  · simp only [grid_coords_from_indices]
    norm_num [wrap360]
    rw [abs_of_pos (by norm_num : (0 : ℚ) < 2 / 5)]
    norm_num
  · simp only [grid_coords_from_indices, circDist]
    norm_num [wrap360, min_def]

/-- C8 (amended): for a latitude between -90 and 90 and a longitude whose
normalization into the band from 0 to 360 does not exceed 359.75, mapping to
the nearest grid indices succeeds and mapping the indices back yields a grid
latitude within a quarter degree of the original and a grid longitude within
a quarter degree of the original measured around the circle. -/
theorem grid_round_trip (lat lon : ℚ)
    (h1 : -90 ≤ lat) (h2 : lat ≤ 90) (h3 : wrap360 lon ≤ 1439 / 4) :
    (nearest_grid_indices lat lon).isSome = true
    ∧ ∀ li lj : ℤ, nearest_grid_indices lat lon = some (li, lj) →
        |(grid_coords_from_indices li lj).1 - lat| ≤ 1 / 4
        ∧ circDist (grid_coords_from_indices li lj).2 lon ≤ 1 / 4 := by
  have hnot : ¬ (lat < -90 ∨ 90 < lat) := by push_neg; exact ⟨h1, h2⟩
  constructor
  · rw [nearest_grid_indices, if_neg hnot]
    rfl
  · intro li lj heq
    rw [nearest_grid_indices, if_neg hnot] at heq
    have hpair := Option.some.inj heq
    rw [Prod.mk.injEq] at hpair
    obtain ⟨hli, hlj⟩ := hpair
    have hxeq : (lat + 90) / (1 / 2) = 2 * (lat + 90) := by ring
    have hr0 : 0 ≤ pyRound (2 * (lat + 90)) := pyRound_nonneg _ (by linarith)
    have hr360 : pyRound (2 * (lat + 90)) ≤ 360 :=
      pyRound_le_int _ 360 (by push_cast; linarith)
    have hlival : li = pyRound (2 * (lat + 90)) := by
      rw [← hli, hxeq, max_eq_right hr0, min_eq_right hr360]
    have hrub := pyRound_le_add_half (2 * (lat + 90))
    have hrlb := sub_half_le_pyRound (2 * (lat + 90))
    have hw0 : 0 ≤ wrap360 lon := wrap360_nonneg lon
    have hyeq : wrap360 lon / (1 / 2) = 2 * wrap360 lon := by ring
    have hj0 : 0 ≤ pyRound (2 * wrap360 lon) := pyRound_nonneg _ (by linarith)
    have hj720 : pyRound (2 * wrap360 lon) ≤ 720 :=
      pyRound_le_int _ 720 (by push_cast; linarith)
    have hjub := pyRound_le_add_half (2 * wrap360 lon)
    have hjlb := sub_half_le_pyRound (2 * wrap360 lon)
    have hljval : lj = min 719 (pyRound (2 * wrap360 lon)) := by
      rw [← hlj, hyeq, max_eq_right hj0]
    have hbound : ((lj : ℚ) ≤ 2 * wrap360 lon + 1 / 2)
        ∧ (2 * wrap360 lon - 1 / 2 ≤ (lj : ℚ)) := by
      rcases le_or_lt (pyRound (2 * wrap360 lon)) 719 with hle | hgt
      · rw [hljval, min_eq_right hle]
        exact ⟨hjub, hjlb⟩
      · have hj720' : pyRound (2 * wrap360 lon) = 720 := by omega
        rw [hljval, min_eq_left (by omega : (719 : ℤ) ≤ pyRound (2 * wrap360 lon))]
        rw [hj720'] at hjub
        push_cast at hjub
        push_cast
        constructor <;> linarith
    constructor
    · simp only [grid_coords_from_indices]
      rw [hlival, abs_le]
      constructor <;> linarith
    · have hglon : (grid_coords_from_indices li lj).2
          = (1 / 2) * (lj : ℚ)
            - 360 * ((⌊((1 / 2) * (lj : ℚ) + 180) / 360⌋ : ℤ) : ℚ) := by
        simp only [grid_coords_from_indices, wrap360]
        ring
      have hlon : lon = wrap360 lon + 360 * ((⌊lon / 360⌋ : ℤ) : ℚ) := by
        rw [wrap360]
        ring
      rw [hglon, circDist_sub_int_mul_left]
      rw [hlon, circDist_add_int_mul_right]
      refine le_trans (circDist_le_abs _ _) ?_
      rw [abs_le]
      obtain ⟨hb1, hb2⟩ := hbound
      constructor <;> linarith

/-- C8 witness: the amended round trip at latitude one half and longitude
-74, which maps to grid indices 181 and 572. -/
theorem grid_round_trip_witness :
    |(grid_coords_from_indices 181 572).1 - 1 / 2| ≤ 1 / 4
    ∧ circDist (grid_coords_from_indices 181 572).2 (-74) ≤ 1 / 4 :=
  (grid_round_trip (1 / 2) (-74) (by norm_num) (by norm_num)
    (by rw [wrap360]; norm_num)).2 181 572
    (by rw [nearest_grid_indices]; norm_num [wrap360, pyRound, min_def, max_def])
